import Mathlib

/-!
Verification of the integrity-scanning engine of the website file-tampering
monitor (monitoringserver.go).

The Go source is shallowly embedded as follows:
- Go strings are modeled as lists of characters (GoStr).
- The in-memory hash database (a Go map from path to hex digest) is an
  association list; the real map has no duplicate keys, so theorems that
  depend on key uniqueness take a Nodup hypothesis.
- A monitored root directory is presented to filepath.Walk as the preorder
  sequence of entries the walk visits: each a walk path paired with what
  the FileInfo shows. A regular file carries the reported size and the
  result of calculateFileHash (none marks a read error); a content digest
  is deterministic in the content, so the entry carries the digest itself.
  Directories and other non-regular entries (symlinks, devices) carry no
  content; every listed path exists per os.Stat.
- filepath.SkipDir prunes the subtree of a skipped directory: in the
  preorder sequence, the following entries whose path lies under the
  skipped directory. walkListing carries the currently skipped directory
  and drops those entries, exactly as filepath.Walk does.
- checkFiles is the walk phase (the root skip, the exclusion check with
  SkipDir pruning, the regular-file filter, the MaxFileSize filter, the
  hash comparison against the store) followed by the deletion sweep over
  the store keys. Alerts are modeled as structured ChangeEvents carrying
  the data the alert strings interpolate.
- initHashDB is the startup load: a parsable store file is taken as-is,
  otherwise the database is rebuilt by hashing every non-directory entry,
  with no exclusion, size or regular-file filtering and with no alerts.
-/

/-- Go string, as the list of its characters. -/
abbrev GoStr := List Char

/-- Builds a GoStr from a Lean string literal. -/
def str (s : String) : GoStr := s.data

/-- filepath.ToSlash: replace the Windows separator by a slash
(identity on paths that contain no backslash). -/
def toSlash (s : GoStr) : GoStr := s.map fun c => if c = '\\' then '/' else c

/-- strings.TrimSuffix: drop the suffix when present. -/
def trimSuffix (s suf : GoStr) : GoStr :=
  if suf.isSuffixOf s then s.take (s.length - suf.length) else s

/-- Drops trailing slashes, the first step of filepath.Base. -/
def dropTrailingSlashes (s : GoStr) : GoStr :=
  (s.reverse.dropWhile (· == '/')).reverse

/-- filepath.Base of a slash-normalized path: the final path element after
trailing slashes are removed; "." for the empty path, "/" for all-slash
paths. -/
def goBase (s : GoStr) : GoStr :=
  if s.isEmpty then ['.']
  else
    let s1 := dropTrailingSlashes s
    if s1.isEmpty then ['/']
    else (s1.reverse.takeWhile (· != '/')).reverse

/-- filepath.Match on the star and question-mark pattern elements used by
shouldExclude's wildcard branch, with an explicit fuel argument as the
termination device (every step shortens the pattern or the name, so the
fuel globMatch supplies is never exhausted): a star matches any run of
non-separator characters, a question mark one non-separator character,
any other character itself. (Bracket character classes and backslash
escapes of filepath.Match are outside the modeled pattern subset; the
wildcard branch is only entered for patterns that contain a star.) -/
def globMatchF : Nat → List Char → List Char → Bool
  | 0, _, _ => false
  | _ + 1, [], [] => true
  | _ + 1, [], _ :: _ => false
  | f + 1, '*' :: ps, [] => globMatchF f ps []
  | f + 1, '*' :: ps, c :: cs =>
      globMatchF f ps (c :: cs) || (c != '/' && globMatchF f ('*' :: ps) cs)
  | f + 1, '?' :: ps, c :: cs => c != '/' && globMatchF f ps cs
  | _ + 1, _ :: _, [] => false
  | f + 1, a :: ps, c :: cs => a == c && globMatchF f ps cs

/-- filepath.Match at sufficient fuel. -/
def globMatch (p s : List Char) : Bool := globMatchF (p.length + s.length + 1) p s

/-- shouldExclude (monitoringserver.go lines 331-360): a path is excluded
when some pattern matches it; a pattern ending in a slash matches the
paths that start with the trimmed directory plus a slash, a pattern
containing a star is glob-matched against the basename, any other pattern
must equal the whole normalized path. -/
def shouldExclude (path : GoStr) (excludePatterns : List GoStr) : Bool :=
  let normalizedPath := toSlash path
  excludePatterns.any fun pattern =>
    if ['/'].isSuffixOf pattern then
      (trimSuffix pattern ['/'] ++ ['/']).isPrefixOf normalizedPath
    else if pattern.contains '*' then
      globMatch pattern (goBase normalizedPath)
    else normalizedPath == pattern

/-- What the walk callback learns about one visited entry from its
FileInfo: a regular file with its size and the digest calculateFileHash
would produce (none marks a read error), a directory, or another
non-regular entry kind (symlink, device, socket). Non-regular entries
carry the digest an open-and-hash of the path would yield, because the
initHashDB walk hashes every non-directory entry. -/
inductive FInfo where
  | file (size : Int) (hashv : Option GoStr)
  | dir
  | other (hashv : Option GoStr)
deriving DecidableEq

/-- The preorder sequence of entries filepath.Walk visits under one root,
the root entry itself included first. -/
abbrev Listing := List (GoStr × FInfo)

/-- The monitored filesystem: each root directory path paired with the
walk sequence of the tree rooted there. -/
abbrev FS := List (GoStr × Listing)

/-- The paths of a walk sequence. -/
def listingPaths (l : Listing) : List GoStr := l.map (·.1)

/-- Every path that exists on disk, across all monitored roots. -/
def allPaths : FS → List GoStr
  | [] => []
  | (_, l) :: rest => listingPaths l ++ allPaths rest

/-- os.Stat succeeds exactly on the paths present in the walk
sequences. -/
def statExists (fs : FS) (p : GoStr) : Bool := decide (p ∈ allPaths fs)

/-- The path p lies strictly under the directory d. -/
def underDir (d p : GoStr) : Bool := (d ++ ['/']).isPrefixOf p

/-- True when the walk is inside a subtree skipped by filepath.SkipDir. -/
def inSkipped (sd : Option GoStr) (path : GoStr) : Bool :=
  match sd with
  | none => false
  | some d => underDir d path

/-- The in-memory hash database: path to hex digest. The Go map has
unique keys; theorems needing that take a Nodup hypothesis on the keys. -/
abbrev Store := List (GoStr × GoStr)

/-- Map lookup (hashDB[path]). -/
def Store.find : Store → GoStr → Option GoStr
  | [], _ => none
  | (q, v) :: rest, p => if q = p then some v else Store.find rest p

/-- Map assignment (hashDB[path] = hash): replace the binding when the key
is present, append a binding otherwise. -/
def Store.set : Store → GoStr → GoStr → Store
  | [], p, h => [(p, h)]
  | (q, v) :: rest, p, h =>
      if q = p then (p, h) :: rest else (q, v) :: Store.set rest p h

/-- Map deletion (delete(hashDB, path)). -/
def Store.erase (db : Store) (p : GoStr) : Store := db.filter (fun e => decide (e.1 ≠ p))

/-- The keys of the store, in binding order. -/
def Store.keys (db : Store) : List GoStr := db.map (·.1)

/-- An alert record produced by checkFiles, carrying the data the alert
string interpolates. -/
inductive ChangeEvent where
  | newFile (path : GoStr) (size : Int) (hash : GoStr)
  | modifiedFile (path : GoStr) (size : Int) (oldHash newHash : GoStr)
  | deletedFile (path : GoStr)
deriving DecidableEq

/-- The path an event is about. -/
def ChangeEvent.path : ChangeEvent → GoStr
  | .newFile p _ _ => p
  | .modifiedFile p _ _ _ => p
  | .deletedFile p => p

/-- The mutable state of one checkFiles cycle: the hash database, the
alerts raised so far, and the changesDetected flag. -/
structure ScanState where
  db : Store
  events : List ChangeEvent
  changesDetected : Bool
deriving DecidableEq

/-- The body of the walk callback for a regular, non-root, non-excluded
file (monitoringserver.go lines 267-293): skip the file when MaxFileSize
is positive and exceeded, skip it when hashing fails, otherwise flag it
new or modified according to the stored digest. -/
def processFile (m : Int) (path : GoStr) (size : Int) (hashv : Option GoStr)
    (s : ScanState) : ScanState :=
  if 0 < m ∧ m < size then s
  else
    match hashv with
    | none => s
    | some currentHash =>
      match Store.find s.db path with
      | none =>
          ⟨Store.set s.db path currentHash,
           s.events ++ [.newFile path size currentHash], true⟩
      | some storedHash =>
          if storedHash = currentHash then s
          else
            ⟨Store.set s.db path currentHash,
             s.events ++ [.modifiedFile path size storedHash currentHash], true⟩

/-- filepath.Walk of one root inside checkFiles (monitoringserver.go
lines 243-296), over the walk sequence, carrying the directory being
skipped when a SkipDir is in force: entries under it are dropped, the
root path itself is skipped, an excluded directory starts a SkipDir and
an excluded file is skipped, non-regular entries are skipped, and regular
files are processed by processFile. -/
def walkListing (ex : List GoStr) (m : Int) (root : GoStr) :
    Listing → Option GoStr → ScanState → ScanState
  | [], _, s => s
  | (path, .dir) :: rest, sd, s =>
    if inSkipped sd path then walkListing ex m root rest sd s
    else if path = root then walkListing ex m root rest none s
    else if shouldExclude path ex then walkListing ex m root rest (some path) s
    else walkListing ex m root rest none s
  | (path, .file size hashv) :: rest, sd, s =>
    if inSkipped sd path then walkListing ex m root rest sd s
    else if path = root then walkListing ex m root rest none s
    else if shouldExclude path ex then walkListing ex m root rest none s
    else walkListing ex m root rest none (processFile m path size hashv s)
  | (path, .other _) :: rest, sd, s =>
    if inSkipped sd path then walkListing ex m root rest sd s
    else if path = root then walkListing ex m root rest none s
    else if shouldExclude path ex then walkListing ex m root rest none s
    else walkListing ex m root rest none s

/-- The walk phase of checkFiles over every monitored root. -/
def walkRoots (ex : List GoStr) (m : Int) : FS → ScanState → ScanState
  | [], s => s
  | (rp, l) :: rest, s => walkRoots ex m rest (walkListing ex m rp l none s)

/-- The deletion sweep (monitoringserver.go lines 303-313) over a key
list: a stored path that no longer stats and is not excluded is deleted
from the store with a deletion alert. -/
def sweepGo (fs : FS) (ex : List GoStr) : List GoStr → ScanState → ScanState
  | [], s => s
  | p :: ps, s =>
      sweepGo fs ex ps
        (if statExists fs p then s
         else if shouldExclude p ex then s
         else ⟨Store.erase s.db p, s.events ++ [.deletedFile p], true⟩)

/-- One checkFiles cycle (monitoringserver.go lines 238-322): walk every
monitored root, then sweep the store keys for deletions. -/
def checkFiles (fs : FS) (ex : List GoStr) (m : Int) (db : Store) : ScanState :=
  let s1 := walkRoots ex m fs ⟨db, [], false⟩
  sweepGo fs ex (Store.keys s1.db) s1

/-- One file the checkFiles walk hands to the hashing-and-diffing step,
with the size and hash outcome it sees there. -/
structure Job where
  path : GoStr
  size : Int
  hashv : Option GoStr
deriving DecidableEq

/-- The files the checkFiles walk of one root hands to processFile, in
visit order: the same traversal decisions as walkListing, recorded
instead of executed. -/
def walkJobs (ex : List GoStr) (m : Int) (root : GoStr) :
    Listing → Option GoStr → List Job
  | [], _ => []
  | (path, .dir) :: rest, sd =>
    if inSkipped sd path then walkJobs ex m root rest sd
    else if path = root then walkJobs ex m root rest none
    else if shouldExclude path ex then walkJobs ex m root rest (some path)
    else walkJobs ex m root rest none
  | (path, .file size hashv) :: rest, sd =>
    if inSkipped sd path then walkJobs ex m root rest sd
    else if path = root then walkJobs ex m root rest none
    else if shouldExclude path ex then walkJobs ex m root rest none
    else ⟨path, size, hashv⟩ :: walkJobs ex m root rest none
  | (path, .other _) :: rest, sd =>
    if inSkipped sd path then walkJobs ex m root rest sd
    else if path = root then walkJobs ex m root rest none
    else if shouldExclude path ex then walkJobs ex m root rest none
    else walkJobs ex m root rest none

/-- The files one whole checkFiles walk phase hands to processFile. -/
def scanJobs (ex : List GoStr) (m : Int) : FS → List Job
  | [] => []
  | (rp, l) :: rest => walkJobs ex m rp l none ++ scanJobs ex m rest

/-- Runs processFile over a recorded job list. -/
def applyJobs (m : Int) : List Job → ScanState → ScanState
  | [], s => s
  | j :: rest, s => applyJobs m rest (processFile m j.path j.size j.hashv s)

/-- The walk callback of the initHashDB rebuild (monitoringserver.go
lines 158-189) over a walk sequence: every non-directory entry is hashed
and stored, with no root skip, no exclusion check, no regular-file check
and no size check; a hash error skips the entry. -/
def initWalkListing : Listing → Store → Store
  | [], db => db
  | (_, .dir) :: rest, db => initWalkListing rest db
  | (_, .file _ none) :: rest, db => initWalkListing rest db
  | (path, .file _ (some h)) :: rest, db => initWalkListing rest (Store.set db path h)
  | (_, .other none) :: rest, db => initWalkListing rest db
  | (path, .other (some h)) :: rest, db => initWalkListing rest (Store.set db path h)

/-- The initHashDB rebuild over every monitored root, starting from the
database contents present when the rebuild begins. -/
def initRebuild : FS → Store → Store
  | [], db => db
  | (_, l) :: rest, db => initRebuild rest (initWalkListing l db)

/-- The state of the hash-database file at startup as initHashDB observes
it: missing (os.Stat fails), present but unparsable, or parsable with the
stored contents. -/
inductive StoreFileState where
  | absent
  | corrupt
  | wellFormed (db : Store)

/-- initHashDB (monitoringserver.go lines 142-189): a parsable store file
is loaded as-is; otherwise the database is rebuilt from the filesystem by
the unfiltered hashing walk, with no alert emitted. -/
def initHashDB (sf : StoreFileState) (fs : FS) : Store :=
  match sf with
  | .wellFormed db => db
  | .absent => initRebuild fs []
  | .corrupt => initRebuild fs []

/-- Lexicographic character-list order, the byte order in which Go
serializes the keys of a string-keyed map. -/
def lexLe : GoStr → GoStr → Bool
  | [], _ => true
  | _ :: _, [] => false
  | a :: as, b :: bs => if a = b then lexLe as bs else decide (a < b)

/-- Sorted insertion of one binding by key. -/
def insertSorted (x : GoStr × GoStr) : List (GoStr × GoStr) → List (GoStr × GoStr)
  | [] => [x]
  | y :: ys => if lexLe x.1 y.1 then x :: y :: ys else y :: insertSorted x ys

/-- saveHashDB (monitoringserver.go lines 191-207), at the level of the
serialized content: json.Marshal writes one member per binding of the
map, in sorted key order. -/
def save (db : Store) : List (GoStr × GoStr) := db.foldr insertSorted []

/-- Loading serialized content into the (empty at startup) hashDB map, as
json.Unmarshal does member by member, a later duplicate key
overwriting. -/
def load (data : List (GoStr × GoStr)) : Store :=
  data.foldl (fun acc x => Store.set acc x.1 x.2) []

/-! ### Store lemmas -/

theorem Store.find_set_self : ∀ (db : Store) (p h : GoStr),
    Store.find (Store.set db p h) p = some h
  | [], p, h => by simp [Store.set, Store.find]
  | (k, v) :: rest, p, h => by
    by_cases hk : k = p
    · simp [Store.set, Store.find, hk]
    · simp only [Store.set, if_neg hk, Store.find]
      exact Store.find_set_self rest p h

theorem Store.find_set_ne : ∀ (db : Store) (p h q : GoStr), q ≠ p →
    Store.find (Store.set db p h) q = Store.find db q
  | [], p, h, q, hne => by simp [Store.set, Store.find, Ne.symm hne]
  | (k, v) :: rest, p, h, q, hne => by
    by_cases hk : k = p
    · subst hk
      simp [Store.set, Store.find, Ne.symm hne]
    · by_cases hkq : k = q
      · simp [Store.set, Store.find, hk, hkq, hne]
      · simp only [Store.set, if_neg hk, Store.find, if_neg hkq]
        exact Store.find_set_ne rest p h q hne

theorem Store.find_erase_self : ∀ (db : Store) (p : GoStr),
    Store.find (Store.erase db p) p = none
  | [], p => rfl
  | (k, v) :: rest, p => by
    have ih := Store.find_erase_self rest p
    by_cases hk : k = p
    · simp only [Store.erase, List.filter_cons] at *
      simp_all [Store.find]
    · simp only [Store.erase, List.filter_cons] at *
      simp_all [Store.find]

theorem Store.find_erase_ne : ∀ (db : Store) (p q : GoStr), q ≠ p →
    Store.find (Store.erase db p) q = Store.find db q
  | [], p, q, hne => rfl
  | (k, v) :: rest, p, q, hne => by
    have ih := Store.find_erase_ne rest p q hne
    by_cases hk : k = p
    · have hkq : ¬k = q := fun e => hne (by rw [← e]; exact hk)
      simp only [Store.erase, List.filter_cons] at *
      simp_all [Store.find]
    · by_cases hkq : k = q
      · simp only [Store.erase, List.filter_cons] at *
        simp_all [Store.find]
      · simp only [Store.erase, List.filter_cons] at *
        simp_all [Store.find]

theorem Store.find_ne_none_iff : ∀ (db : Store) (p : GoStr),
    Store.find db p ≠ none ↔ p ∈ Store.keys db
  | [], p => by simp [Store.find, Store.keys]
  | (k, v) :: rest, p => by
    by_cases hk : k = p
    · simp [Store.find, Store.keys, hk]
    · have := Store.find_ne_none_iff rest p
      simp only [Store.find, if_neg hk, Store.keys, List.map_cons, List.mem_cons]
      rw [this]
      simp [Store.keys, Ne.symm hk]

/-! ### processFile and applyJobs lemmas -/

/-- The event checkFiles raises for an eligible file at path P with size
sz and fresh digest h, given the digest the store held before. -/
def eventAt (old : Option GoStr) (P : GoStr) (sz : Int) (h : GoStr) : List ChangeEvent :=
  match old with
  | none => [.newFile P sz h]
  | some stored => if stored = h then [] else [.modifiedFile P sz stored h]

/-- The events of a list that concern the path q. -/
def eventsAt (q : GoStr) (evs : List ChangeEvent) : List ChangeEvent :=
  evs.filter fun ev => decide (ChangeEvent.path ev = q)

theorem eventsAt_append (q : GoStr) (a b : List ChangeEvent) :
    eventsAt q (a ++ b) = eventsAt q a ++ eventsAt q b :=
  List.filter_append a b

theorem eventsAt_of_ne (q : GoStr) (t : List ChangeEvent)
    (h : ∀ ev ∈ t, ChangeEvent.path ev ≠ q) : eventsAt q t = [] := by
  rw [eventsAt, List.filter_eq_nil_iff]
  intro ev hev
  simpa using h ev hev

theorem processFile_skip_oversized (m : Int) (path : GoStr) (size : Int)
    (hashv : Option GoStr) (s : ScanState) (hsz : 0 < m ∧ m < size) :
    processFile m path size hashv s = s := by
  simp [processFile, hsz]

theorem processFile_skip_hashError (m : Int) (path : GoStr) (size : Int)
    (s : ScanState) : processFile m path size none s = s := by
  unfold processFile
  split <;> rfl

theorem processFile_db_frame (m : Int) (path : GoStr) (size : Int)
    (hashv : Option GoStr) (s : ScanState) (q : GoStr) (hq : q ≠ path) :
    Store.find (processFile m path size hashv s).db q = Store.find s.db q := by
  unfold processFile
  split
  · rfl
  · match hashv with
    | none => rfl
    | some h =>
      simp only
      split
      · simp [Store.find_set_ne _ _ _ _ hq]
      · split
        · rfl
        · simp [Store.find_set_ne _ _ _ _ hq]

theorem processFile_events_extend (m : Int) (path : GoStr) (size : Int)
    (hashv : Option GoStr) (s : ScanState) :
    ∃ t, (processFile m path size hashv s).events = s.events ++ t ∧
      ∀ ev ∈ t, ChangeEvent.path ev = path := by
  unfold processFile
  split
  · exact ⟨[], by simp⟩
  · match hashv with
    | none => exact ⟨[], by simp⟩
    | some h =>
      simp only
      cases hf : Store.find s.db path with
      | none => exact ⟨[.newFile path size h], by simp [ChangeEvent.path]⟩
      | some stored =>
        by_cases he : stored = h
        · exact ⟨[], by simp [he]⟩
        · exact ⟨[.modifiedFile path size stored h], by simp [he, ChangeEvent.path]⟩

theorem processFile_at (m : Int) (path : GoStr) (size : Int) (h : GoStr)
    (s : ScanState) (hsz : ¬(0 < m ∧ m < size)) :
    Store.find (processFile m path size (some h) s).db path = some h ∧
    (processFile m path size (some h) s).events =
      s.events ++ eventAt (Store.find s.db path) path size h := by
  unfold processFile
  rw [if_neg hsz]
  simp only
  cases hf : Store.find s.db path with
  | none => simp [Store.find_set_self, eventAt]
  | some stored =>
    by_cases he : stored = h
    · simp [he, hf, eventAt]
    · simp [he, hf, eventAt, Store.find_set_self]

theorem eventsAt_eventAt (q : GoStr) (old : Option GoStr) (sz : Int) (h : GoStr) :
    eventsAt q (eventAt old q sz h) = eventAt old q sz h := by
  cases old with
  | none => simp [eventAt, eventsAt, ChangeEvent.path]
  | some stored =>
    by_cases he : stored = h
    · simp [eventAt, he, eventsAt]
    · simp [eventAt, he, eventsAt, ChangeEvent.path]

theorem processFile_noop (m : Int) (path : GoStr) (size : Int) (h : GoStr)
    (s : ScanState) (hsz : ¬(0 < m ∧ m < size))
    (hf : Store.find s.db path = some h) :
    processFile m path size (some h) s = s := by
  unfold processFile
  rw [if_neg hsz]
  simp [hf]

theorem applyJobs_frame (m : Int) : ∀ (js : List Job) (s : ScanState) (q : GoStr),
    (∀ j ∈ js, j.path = q → (0 < m ∧ m < j.size) ∨ j.hashv = none) →
    Store.find (applyJobs m js s).db q = Store.find s.db q ∧
    eventsAt q (applyJobs m js s).events = eventsAt q s.events
  | [], s, q, _ => ⟨rfl, rfl⟩
  | j :: rest, s, q, hjs => by
    have hstep : Store.find (processFile m j.path j.size j.hashv s).db q = Store.find s.db q ∧
        eventsAt q (processFile m j.path j.size j.hashv s).events = eventsAt q s.events := by
      by_cases hp : j.path = q
      · rcases hjs j (List.mem_cons_self j rest) hp with hsz | hnone
        · rw [processFile_skip_oversized m j.path j.size j.hashv s hsz]
          exact ⟨rfl, rfl⟩
        · rw [hnone, processFile_skip_hashError]
          exact ⟨rfl, rfl⟩
      · obtain ⟨t, ht, hall⟩ := processFile_events_extend m j.path j.size j.hashv s
        refine ⟨processFile_db_frame m j.path j.size j.hashv s q (fun e => hp e.symm), ?_⟩
        rw [ht, eventsAt_append, eventsAt_of_ne q t (fun ev hev => by rw [hall ev hev]; exact hp),
          List.append_nil]
    have ih := applyJobs_frame m rest (processFile m j.path j.size j.hashv s) q
      (fun j' hj' => hjs j' (List.mem_cons_of_mem j hj'))
    exact ⟨by rw [applyJobs, ih.1, hstep.1], by rw [applyJobs, ih.2, hstep.2]⟩

theorem applyJobs_identity (m : Int) : ∀ (js : List Job) (s : ScanState),
    (∀ j ∈ js, ∀ h, j.hashv = some h → ¬(0 < m ∧ m < j.size) →
      Store.find s.db j.path = some h) →
    applyJobs m js s = s
  | [], s, _ => rfl
  | j :: rest, s, hjs => by
    have hstep : processFile m j.path j.size j.hashv s = s := by
      by_cases hsz : 0 < m ∧ m < j.size
      · exact processFile_skip_oversized m j.path j.size j.hashv s hsz
      · cases hv : j.hashv with
        | none => exact processFile_skip_hashError m j.path j.size s
        | some h =>
          exact processFile_noop m j.path j.size h s hsz
            (hjs j (List.mem_cons_self j rest) h hv hsz)
    rw [applyJobs, hstep]
    exact applyJobs_identity m rest s (fun j' hj' => hjs j' (List.mem_cons_of_mem j hj'))

theorem applyJobs_at (m : Int) : ∀ (js : List Job) (s : ScanState) (q : GoStr)
    (sz : Int) (h : GoStr),
    (js.map Job.path).Nodup → (⟨q, sz, some h⟩ : Job) ∈ js → ¬(0 < m ∧ m < sz) →
    Store.find (applyJobs m js s).db q = some h ∧
    eventsAt q (applyJobs m js s).events =
      eventsAt q s.events ++ eventAt (Store.find s.db q) q sz h
  | [], _, _, _, _, _, hj, _ => absurd hj (List.not_mem_nil _)
  | j0 :: rest, s, q, sz, h, hnd, hj, hsz => by
    rcases List.mem_cons.mp hj with he | hmem
    · -- the head is the distinguished job
      subst he
      simp only [List.map_cons] at hnd
      have hnotin : q ∉ rest.map Job.path := by
        simpa using (List.nodup_cons.mp hnd).1
      have hrestne : ∀ j' ∈ rest, j'.path ≠ q := by
        intro j' hj' hc
        exact hnotin (by rw [← hc]; exact List.mem_map_of_mem Job.path hj')
      have hpf := processFile_at m q sz h s hsz
      have hframe := applyJobs_frame m rest (processFile m q sz (some h) s) q
        (fun j' hj' hp => absurd hp (hrestne j' hj'))
      rw [applyJobs]
      dsimp only
      exact ⟨by rw [hframe.1, hpf.1],
        by rw [hframe.2, hpf.2, eventsAt_append, eventsAt_eventAt]⟩
    · -- the distinguished job sits in the tail
      have hqmem : q ∈ rest.map Job.path :=
        List.mem_map.mpr ⟨⟨q, sz, some h⟩, hmem, rfl⟩
      have hp0 : j0.path ≠ q := by
        intro hc
        exact (List.nodup_cons.mp hnd).1 (hc ▸ hqmem)
      obtain ⟨t, ht, hall⟩ := processFile_events_extend m j0.path j0.size j0.hashv s
      have hdb0 : Store.find (processFile m j0.path j0.size j0.hashv s).db q =
          Store.find s.db q :=
        processFile_db_frame m j0.path j0.size j0.hashv s q (fun e => hp0 e.symm)
      have ih := applyJobs_at m rest (processFile m j0.path j0.size j0.hashv s) q sz h
        (by simpa using (List.nodup_cons.mp (by simpa using hnd)).2) hmem hsz
      constructor
      · rw [applyJobs, ih.1]
      · rw [applyJobs, ih.2, hdb0, ht, eventsAt_append,
          eventsAt_of_ne q t (fun ev hev => by rw [hall ev hev]; exact hp0), List.append_nil]

/-! ### The walk phase as its recorded job list -/

theorem applyJobs_append (m : Int) : ∀ (a b : List Job) (s : ScanState),
    applyJobs m (a ++ b) s = applyJobs m b (applyJobs m a s)
  | [], b, s => rfl
  | j :: rest, b, s => by
    rw [List.cons_append, applyJobs, applyJobs]
    exact applyJobs_append m rest b _

theorem walkListing_eq_applyJobs (ex : List GoStr) (m : Int) (root : GoStr) :
    ∀ (l : Listing) (sd : Option GoStr) (s : ScanState),
    walkListing ex m root l sd s = applyJobs m (walkJobs ex m root l sd) s
  | [], sd, s => rfl
  | (path, .dir) :: rest, sd, s => by
    rw [walkListing, walkJobs]
    by_cases h1 : inSkipped sd path
    · rw [if_pos h1, if_pos h1]; exact walkListing_eq_applyJobs ex m root rest sd s
    · rw [if_neg h1, if_neg h1]
      by_cases h2 : path = root
      · rw [if_pos h2, if_pos h2]; exact walkListing_eq_applyJobs ex m root rest none s
      · rw [if_neg h2, if_neg h2]
        by_cases h3 : shouldExclude path ex
        · rw [if_pos h3, if_pos h3]
          exact walkListing_eq_applyJobs ex m root rest (some path) s
        · rw [if_neg h3, if_neg h3]; exact walkListing_eq_applyJobs ex m root rest none s
  | (path, .file size hashv) :: rest, sd, s => by
    rw [walkListing, walkJobs]
    by_cases h1 : inSkipped sd path
    · rw [if_pos h1, if_pos h1]; exact walkListing_eq_applyJobs ex m root rest sd s
    · rw [if_neg h1, if_neg h1]
      by_cases h2 : path = root
      · rw [if_pos h2, if_pos h2]; exact walkListing_eq_applyJobs ex m root rest none s
      · rw [if_neg h2, if_neg h2]
        by_cases h3 : shouldExclude path ex
        · rw [if_pos h3, if_pos h3]; exact walkListing_eq_applyJobs ex m root rest none s
        · rw [if_neg h3, if_neg h3, applyJobs]
          exact walkListing_eq_applyJobs ex m root rest none _
  | (path, .other hv) :: rest, sd, s => by
    rw [walkListing, walkJobs]
    by_cases h1 : inSkipped sd path
    · rw [if_pos h1, if_pos h1]; exact walkListing_eq_applyJobs ex m root rest sd s
    · rw [if_neg h1, if_neg h1]
      by_cases h2 : path = root
      · rw [if_pos h2, if_pos h2]; exact walkListing_eq_applyJobs ex m root rest none s
      · rw [if_neg h2, if_neg h2]
        by_cases h3 : shouldExclude path ex
        · rw [if_pos h3, if_pos h3]; exact walkListing_eq_applyJobs ex m root rest none s
        · rw [if_neg h3, if_neg h3]; exact walkListing_eq_applyJobs ex m root rest none s

theorem walkRoots_eq_applyJobs (ex : List GoStr) (m : Int) : ∀ (fs : FS) (s : ScanState),
    walkRoots ex m fs s = applyJobs m (scanJobs ex m fs) s
  | [], s => rfl
  | (rp, l) :: rest, s => by
    rw [walkRoots, scanJobs, applyJobs_append, ← walkListing_eq_applyJobs]
    exact walkRoots_eq_applyJobs ex m rest _

/-! ### What the job list can contain -/

theorem walkJobs_mem (ex : List GoStr) (m : Int) (root : GoStr) :
    ∀ (l : Listing) (sd : Option GoStr) (j : Job), j ∈ walkJobs ex m root l sd →
    (j.path, FInfo.file j.size j.hashv) ∈ l ∧ shouldExclude j.path ex = false
  | [], sd, j, hj => absurd hj (List.not_mem_nil _)
  | (path, .dir) :: rest, sd, j, hj => by
    rw [walkJobs] at hj
    by_cases h1 : inSkipped sd path
    · rw [if_pos h1] at hj
      have := walkJobs_mem ex m root rest sd j hj
      exact ⟨List.mem_cons_of_mem _ this.1, this.2⟩
    · rw [if_neg h1] at hj
      by_cases h2 : path = root
      · rw [if_pos h2] at hj
        have := walkJobs_mem ex m root rest none j hj
        exact ⟨List.mem_cons_of_mem _ this.1, this.2⟩
      · rw [if_neg h2] at hj
        by_cases h3 : shouldExclude path ex
        · rw [if_pos h3] at hj
          have := walkJobs_mem ex m root rest (some path) j hj
          exact ⟨List.mem_cons_of_mem _ this.1, this.2⟩
        · rw [if_neg h3] at hj
          have := walkJobs_mem ex m root rest none j hj
          exact ⟨List.mem_cons_of_mem _ this.1, this.2⟩
  | (path, .file size hashv) :: rest, sd, j, hj => by
    rw [walkJobs] at hj
    by_cases h1 : inSkipped sd path
    · rw [if_pos h1] at hj
      have := walkJobs_mem ex m root rest sd j hj
      exact ⟨List.mem_cons_of_mem _ this.1, this.2⟩
    · rw [if_neg h1] at hj
      by_cases h2 : path = root
      · rw [if_pos h2] at hj
        have := walkJobs_mem ex m root rest none j hj
        exact ⟨List.mem_cons_of_mem _ this.1, this.2⟩
      · rw [if_neg h2] at hj
        by_cases h3 : shouldExclude path ex
        · rw [if_pos h3] at hj
          have := walkJobs_mem ex m root rest none j hj
          exact ⟨List.mem_cons_of_mem _ this.1, this.2⟩
        · rw [if_neg h3] at hj
          rcases List.mem_cons.mp hj with he | hmem
          · subst he
            exact ⟨List.mem_cons_self _ _, by simpa using h3⟩
          · have := walkJobs_mem ex m root rest none j hmem
            exact ⟨List.mem_cons_of_mem _ this.1, this.2⟩
  | (path, .other hv) :: rest, sd, j, hj => by
    rw [walkJobs] at hj
    by_cases h1 : inSkipped sd path
    · rw [if_pos h1] at hj
      have := walkJobs_mem ex m root rest sd j hj
      exact ⟨List.mem_cons_of_mem _ this.1, this.2⟩
    · rw [if_neg h1] at hj
      by_cases h2 : path = root
      · rw [if_pos h2] at hj
        have := walkJobs_mem ex m root rest none j hj
        exact ⟨List.mem_cons_of_mem _ this.1, this.2⟩
      · rw [if_neg h2] at hj
        by_cases h3 : shouldExclude path ex
        · rw [if_pos h3] at hj
          have := walkJobs_mem ex m root rest none j hj
          exact ⟨List.mem_cons_of_mem _ this.1, this.2⟩
        · rw [if_neg h3] at hj
          have := walkJobs_mem ex m root rest none j hj
          exact ⟨List.mem_cons_of_mem _ this.1, this.2⟩

theorem listingPaths_cons (path : GoStr) (info : FInfo) (rest : Listing) :
    listingPaths ((path, info) :: rest) = path :: listingPaths rest := rfl

theorem walkJobs_paths_sublist (ex : List GoStr) (m : Int) (root : GoStr) :
    ∀ (l : Listing) (sd : Option GoStr),
    ((walkJobs ex m root l sd).map Job.path).Sublist (listingPaths l)
  | [], sd => List.Sublist.refl _
  | (path, .dir) :: rest, sd => by
    rw [listingPaths_cons, walkJobs]
    by_cases h1 : inSkipped sd path
    · rw [if_pos h1]
      exact (walkJobs_paths_sublist ex m root rest sd).trans (List.sublist_cons_self _ _)
    · rw [if_neg h1]
      by_cases h2 : path = root
      · rw [if_pos h2]
        exact (walkJobs_paths_sublist ex m root rest none).trans (List.sublist_cons_self _ _)
      · rw [if_neg h2]
        by_cases h3 : shouldExclude path ex
        · rw [if_pos h3]
          exact (walkJobs_paths_sublist ex m root rest (some path)).trans
            (List.sublist_cons_self _ _)
        · rw [if_neg h3]
          exact (walkJobs_paths_sublist ex m root rest none).trans (List.sublist_cons_self _ _)
  | (path, .file size hashv) :: rest, sd => by
    rw [listingPaths_cons, walkJobs]
    by_cases h1 : inSkipped sd path
    · rw [if_pos h1]
      exact (walkJobs_paths_sublist ex m root rest sd).trans (List.sublist_cons_self _ _)
    · rw [if_neg h1]
      by_cases h2 : path = root
      · rw [if_pos h2]
        exact (walkJobs_paths_sublist ex m root rest none).trans (List.sublist_cons_self _ _)
      · rw [if_neg h2]
        by_cases h3 : shouldExclude path ex
        · rw [if_pos h3]
          exact (walkJobs_paths_sublist ex m root rest none).trans (List.sublist_cons_self _ _)
        · rw [if_neg h3, List.map_cons]
          exact List.Sublist.cons₂ _ (walkJobs_paths_sublist ex m root rest none)
  | (path, .other hv) :: rest, sd => by
    rw [listingPaths_cons, walkJobs]
    by_cases h1 : inSkipped sd path
    · rw [if_pos h1]
      exact (walkJobs_paths_sublist ex m root rest sd).trans (List.sublist_cons_self _ _)
    · rw [if_neg h1]
      by_cases h2 : path = root
      · rw [if_pos h2]
        exact (walkJobs_paths_sublist ex m root rest none).trans (List.sublist_cons_self _ _)
      · rw [if_neg h2]
        by_cases h3 : shouldExclude path ex
        · rw [if_pos h3]
          exact (walkJobs_paths_sublist ex m root rest none).trans (List.sublist_cons_self _ _)
        · rw [if_neg h3]
          exact (walkJobs_paths_sublist ex m root rest none).trans (List.sublist_cons_self _ _)

theorem scanJobs_paths_sublist (ex : List GoStr) (m : Int) :
    ∀ (fs : FS), ((scanJobs ex m fs).map Job.path).Sublist (allPaths fs)
  | [] => List.Sublist.refl _
  | (rp, l) :: rest => by
    rw [scanJobs, allPaths, List.map_append]
    exact (walkJobs_paths_sublist ex m rp l none).append (scanJobs_paths_sublist ex m rest)

theorem scanJobs_mem (ex : List GoStr) (m : Int) :
    ∀ (fs : FS) (j : Job), j ∈ scanJobs ex m fs →
    (∃ r ∈ fs, (j.path, FInfo.file j.size j.hashv) ∈ r.2) ∧
      shouldExclude j.path ex = false
  | [], j, hj => absurd hj (List.not_mem_nil _)
  | (rp, l) :: rest, j, hj => by
    rw [scanJobs] at hj
    rcases List.mem_append.mp hj with hl | hr
    · have := walkJobs_mem ex m rp l none j hl
      exact ⟨⟨(rp, l), List.mem_cons_self _ _, this.1⟩, this.2⟩
    · obtain ⟨⟨r, hrmem, hentry⟩, hexcl⟩ := scanJobs_mem ex m rest j hr
      exact ⟨⟨r, List.mem_cons_of_mem _ hrmem, hentry⟩, hexcl⟩

theorem mem_allPaths_of_mem_listing : ∀ (fs : FS) (r : GoStr × Listing), r ∈ fs →
    ∀ (p : GoStr), p ∈ listingPaths r.2 → p ∈ allPaths fs
  | [], r, hr, p, hp => absurd hr (List.not_mem_nil _)
  | (rp, l) :: rest, r, hr, p, hp => by
    rw [allPaths, List.mem_append]
    rcases List.mem_cons.mp hr with he | hmem
    · subst he
      exact Or.inl hp
    · exact Or.inr (mem_allPaths_of_mem_listing rest r hmem p hp)

theorem scanJobs_statExists (ex : List GoStr) (m : Int) (fs : FS) (j : Job)
    (hj : j ∈ scanJobs ex m fs) : statExists fs j.path = true := by
  obtain ⟨⟨r, hrmem, hentry⟩, _⟩ := scanJobs_mem ex m fs j hj
  have hp : j.path ∈ listingPaths r.2 := by
    rw [listingPaths]
    exact List.mem_map_of_mem _ hentry
  rw [statExists, decide_eq_true_iff]
  exact mem_allPaths_of_mem_listing fs r hrmem j.path hp

/-! ### Deletion-sweep lemmas -/

theorem sweepGo_frame (fs : FS) (ex : List GoStr) :
    ∀ (ks : List GoStr) (s : ScanState) (q : GoStr),
    (statExists fs q = true ∨ shouldExclude q ex = true ∨ q ∉ ks) →
    Store.find (sweepGo fs ex ks s).db q = Store.find s.db q ∧
    eventsAt q (sweepGo fs ex ks s).events = eventsAt q s.events
  | [], s, q, _ => ⟨rfl, rfl⟩
  | p :: ks, s, q, hq => by
    rw [sweepGo]
    have hq' : statExists fs q = true ∨ shouldExclude q ex = true ∨ q ∉ ks := by
      rcases hq with h | h | h
      · exact Or.inl h
      · exact Or.inr (Or.inl h)
      · exact Or.inr (Or.inr fun hc => h (List.mem_cons_of_mem _ hc))
    by_cases he : statExists fs p
    · rw [if_pos he]
      exact sweepGo_frame fs ex ks s q hq'
    · rw [if_neg he]
      by_cases hx : shouldExclude p ex
      · rw [if_pos hx]
        exact sweepGo_frame fs ex ks s q hq'
      · rw [if_neg hx]
        have hpq : q ≠ p := by
          rintro rfl
          rcases hq with h | h | h
          · exact he h
          · exact hx h
          · exact h (List.mem_cons_self _ _)
        have ih := sweepGo_frame fs ex ks
          ⟨Store.erase s.db p, s.events ++ [.deletedFile p], true⟩ q hq'
        refine ⟨?_, ?_⟩
        · rw [ih.1]
          exact Store.find_erase_ne s.db p q hpq
        · rw [ih.2, eventsAt_append, eventsAt_of_ne q [.deletedFile p] ?_, List.append_nil]
          intro ev hev
          rcases List.mem_singleton.mp hev with rfl
          simpa [ChangeEvent.path] using Ne.symm hpq

theorem sweepGo_identity (fs : FS) (ex : List GoStr) :
    ∀ (ks : List GoStr) (s : ScanState),
    (∀ p ∈ ks, statExists fs p = true ∨ shouldExclude p ex = true) →
    sweepGo fs ex ks s = s
  | [], s, _ => rfl
  | p :: ks, s, hks => by
    rw [sweepGo]
    rcases hks p (List.mem_cons_self _ _) with he | hx
    · rw [if_pos he]
      exact sweepGo_identity fs ex ks s (fun q hq => hks q (List.mem_cons_of_mem _ hq))
    · by_cases he' : statExists fs p
      · rw [if_pos he']
        exact sweepGo_identity fs ex ks s (fun q hq => hks q (List.mem_cons_of_mem _ hq))
      · rw [if_neg he', if_pos hx]
        exact sweepGo_identity fs ex ks s (fun q hq => hks q (List.mem_cons_of_mem _ hq))

theorem sweepGo_events (fs : FS) (ex : List GoStr) :
    ∀ (ks : List GoStr) (s : ScanState) (ev : ChangeEvent),
    ev ∈ (sweepGo fs ex ks s).events →
    ev ∈ s.events ∨ ∃ q, ev = .deletedFile q ∧ statExists fs q = false ∧
      shouldExclude q ex = false
  | [], s, ev, hev => Or.inl hev
  | p :: ks, s, ev, hev => by
    rw [sweepGo] at hev
    by_cases he : statExists fs p
    · rw [if_pos he] at hev
      exact sweepGo_events fs ex ks s ev hev
    · rw [if_neg he] at hev
      by_cases hx : shouldExclude p ex
      · rw [if_pos hx] at hev
        exact sweepGo_events fs ex ks s ev hev
      · rw [if_neg hx] at hev
        rcases sweepGo_events fs ex ks _ ev hev with hin | hdel
        · rcases List.mem_append.mp hin with h | h
          · exact Or.inl h
          · rcases List.mem_singleton.mp h with rfl
            exact Or.inr ⟨p, rfl, by simpa using he, by simpa using hx⟩
        · exact Or.inr hdel

theorem sweepGo_none (fs : FS) (ex : List GoStr) :
    ∀ (ks : List GoStr) (s : ScanState) (P : GoStr),
    Store.find s.db P = none → Store.find (sweepGo fs ex ks s).db P = none
  | [], s, P, h => h
  | p :: ks, s, P, h => by
    rw [sweepGo]
    by_cases he : statExists fs p
    · rw [if_pos he]
      exact sweepGo_none fs ex ks s P h
    · rw [if_neg he]
      by_cases hx : shouldExclude p ex
      · rw [if_pos hx]
        exact sweepGo_none fs ex ks s P h
      · rw [if_neg hx]
        refine sweepGo_none fs ex ks _ P ?_
        by_cases hpq : P = p
        · subst hpq
          exact Store.find_erase_self s.db P
        · rw [Store.find_erase_ne s.db p P hpq]
          exact h

theorem sweepGo_delete_at (fs : FS) (ex : List GoStr) :
    ∀ (ks : List GoStr) (s : ScanState) (P : GoStr), ks.Nodup → P ∈ ks →
    statExists fs P = false → shouldExclude P ex = false →
    Store.find (sweepGo fs ex ks s).db P = none ∧
    eventsAt P (sweepGo fs ex ks s).events = eventsAt P s.events ++ [.deletedFile P]
  | [], s, P, _, hP, _, _ => absurd hP (List.not_mem_nil _)
  | p :: ks, s, P, hnd, hP, hex, hsx => by
    rw [sweepGo]
    rcases List.mem_cons.mp hP with rfl | hmem
    · rw [if_neg (by simp [hex]), if_neg (by simp [hsx])]
      have hnotin : P ∉ ks := (List.nodup_cons.mp hnd).1
      have hframe := sweepGo_frame fs ex ks
        ⟨Store.erase s.db P, s.events ++ [.deletedFile P], true⟩ P
        (Or.inr (Or.inr hnotin))
      refine ⟨?_, ?_⟩
      · rw [hframe.1]
        exact Store.find_erase_self s.db P
      · rw [hframe.2, eventsAt_append]
        congr 1
        simp [eventsAt, ChangeEvent.path]
    · have hpP : p ≠ P := by
        rintro rfl
        exact (List.nodup_cons.mp hnd).1 hmem
      by_cases he : statExists fs p
      · rw [if_pos he]
        exact sweepGo_delete_at fs ex ks s P (List.nodup_cons.mp hnd).2 hmem hex hsx
      · rw [if_neg he]
        by_cases hx : shouldExclude p ex
        · rw [if_pos hx]
          exact sweepGo_delete_at fs ex ks s P (List.nodup_cons.mp hnd).2 hmem hex hsx
        · rw [if_neg hx]
          have ih := sweepGo_delete_at fs ex ks
            ⟨Store.erase s.db p, s.events ++ [.deletedFile p], true⟩ P
            (List.nodup_cons.mp hnd).2 hmem hex hsx
          refine ⟨ih.1, ?_⟩
          rw [ih.2]
          congr 1
          rw [eventsAt_append, eventsAt_of_ne P [.deletedFile p] ?_, List.append_nil]
          intro ev hev
          rcases List.mem_singleton.mp hev with rfl
          simpa [ChangeEvent.path] using hpP

/-! ### initHashDB rebuild lemmas -/

theorem initWalkListing_frame : ∀ (l : Listing) (db : Store) (q : GoStr),
    q ∉ listingPaths l → Store.find (initWalkListing l db) q = Store.find db q
  | [], db, q, _ => rfl
  | (path, .dir) :: rest, db, q, hq => by
    rw [initWalkListing]
    exact initWalkListing_frame rest db q (fun hc => hq (List.mem_cons_of_mem _ hc))
  | (path, .file sz none) :: rest, db, q, hq => by
    rw [initWalkListing]
    exact initWalkListing_frame rest db q (fun hc => hq (List.mem_cons_of_mem _ hc))
  | (path, .file sz (some h)) :: rest, db, q, hq => by
    rw [initWalkListing]
    have hqp : q ≠ path := fun hc => hq (by rw [listingPaths_cons, hc]; exact List.mem_cons_self _ _)
    rw [initWalkListing_frame rest _ q (fun hc => hq (List.mem_cons_of_mem _ hc))]
    exact Store.find_set_ne db path h q hqp
  | (path, .other none) :: rest, db, q, hq => by
    rw [initWalkListing]
    exact initWalkListing_frame rest db q (fun hc => hq (List.mem_cons_of_mem _ hc))
  | (path, .other (some h)) :: rest, db, q, hq => by
    rw [initWalkListing]
    have hqp : q ≠ path := fun hc => hq (by rw [listingPaths_cons, hc]; exact List.mem_cons_self _ _)
    rw [initWalkListing_frame rest _ q (fun hc => hq (List.mem_cons_of_mem _ hc))]
    exact Store.find_set_ne db path h q hqp

theorem initWalkListing_at : ∀ (l : Listing) (db : Store) (P : GoStr) (sz : Int) (h : GoStr),
    (P, FInfo.file sz (some h)) ∈ l → (listingPaths l).Nodup →
    Store.find (initWalkListing l db) P = some h
  | [], db, P, sz, h, hmem, _ => absurd hmem (List.not_mem_nil _)
  | (path, .dir) :: rest, db, P, sz, h, hmem, hnd => by
    rw [listingPaths_cons] at hnd
    rcases List.mem_cons.mp hmem with he | hmem'
    · simp at he
    · rw [initWalkListing]
      exact initWalkListing_at rest db P sz h hmem' (List.nodup_cons.mp hnd).2
  | (path, .file sz' none) :: rest, db, P, sz, h, hmem, hnd => by
    rw [listingPaths_cons] at hnd
    rcases List.mem_cons.mp hmem with he | hmem'
    · simp at he
    · rw [initWalkListing]
      exact initWalkListing_at rest db P sz h hmem' (List.nodup_cons.mp hnd).2
  | (path, .file sz' (some h')) :: rest, db, P, sz, h, hmem, hnd => by
    rw [listingPaths_cons] at hnd
    rcases List.mem_cons.mp hmem with he | hmem'
    · injection he with h1 h2
      injection h2 with h3 h4
      injection h4 with h5
      subst h1
      subst h5
      rw [initWalkListing]
      have hnotin : P ∉ listingPaths rest := (List.nodup_cons.mp hnd).1
      rw [initWalkListing_frame rest _ P hnotin]
      exact Store.find_set_self db P h
    · rw [initWalkListing]
      exact initWalkListing_at rest _ P sz h hmem' (List.nodup_cons.mp hnd).2
  | (path, .other none) :: rest, db, P, sz, h, hmem, hnd => by
    rw [listingPaths_cons] at hnd
    rcases List.mem_cons.mp hmem with he | hmem'
    · simp at he
    · rw [initWalkListing]
      exact initWalkListing_at rest db P sz h hmem' (List.nodup_cons.mp hnd).2
  | (path, .other (some h')) :: rest, db, P, sz, h, hmem, hnd => by
    rw [listingPaths_cons] at hnd
    rcases List.mem_cons.mp hmem with he | hmem'
    · simp at he
    · rw [initWalkListing]
      exact initWalkListing_at rest _ P sz h hmem' (List.nodup_cons.mp hnd).2

theorem initRebuild_frame : ∀ (fs : FS) (db : Store) (q : GoStr),
    q ∉ allPaths fs → Store.find (initRebuild fs db) q = Store.find db q
  | [], db, q, _ => rfl
  | (rp, l) :: rest, db, q, hq => by
    rw [initRebuild]
    rw [allPaths] at hq
    rw [initRebuild_frame rest _ q (fun hc => hq (List.mem_append.mpr (Or.inr hc)))]
    exact initWalkListing_frame l db q (fun hc => hq (List.mem_append.mpr (Or.inl hc)))

theorem initRebuild_at : ∀ (fs : FS) (db : Store) (P : GoStr) (sz : Int) (h : GoStr),
    (∃ r ∈ fs, (P, FInfo.file sz (some h)) ∈ r.2) → (allPaths fs).Nodup →
    Store.find (initRebuild fs db) P = some h
  | [], db, P, sz, h, ⟨r, hr, _⟩, _ => absurd hr (List.not_mem_nil _)
  | (rp, l) :: rest, db, P, sz, h, ⟨r, hr, hentry⟩, hnd => by
    rw [initRebuild]
    rw [allPaths] at hnd
    have hnd' := List.nodup_append.mp hnd
    rcases List.mem_cons.mp hr with he | hmem
    · subst he
      have hinl : P ∈ listingPaths l := by
        rw [listingPaths]; exact List.mem_map_of_mem _ hentry
      have hnotin : P ∉ allPaths rest := fun hc => hnd'.2.2 hinl hc
      rw [initRebuild_frame rest _ P hnotin]
      exact initWalkListing_at l db P sz h hentry hnd'.1
    · exact initRebuild_at rest _ P sz h ⟨r, hmem, hentry⟩ hnd'.2.1

theorem initRebuild_keys (fs : FS) (db : Store) (q : GoStr)
    (h : Store.find (initRebuild fs db) q ≠ none) :
    Store.find db q ≠ none ∨ q ∈ allPaths fs := by
  by_cases hq : q ∈ allPaths fs
  · exact Or.inr hq
  · rw [initRebuild_frame fs db q hq] at h
    exact Or.inl h

/-! ### Persistence lemmas -/

theorem insertSorted_perm (x : GoStr × GoStr) : ∀ (l : List (GoStr × GoStr)),
    (insertSorted x l).Perm (x :: l)
  | [] => List.Perm.refl _
  | y :: ys => by
    rw [insertSorted]
    by_cases h : lexLe x.1 y.1
    · rw [if_pos h]
    · rw [if_neg h]
      exact (List.Perm.cons y (insertSorted_perm x ys)).trans (List.Perm.swap x y ys)

theorem save_perm : ∀ (db : Store), (save db).Perm db
  | [] => List.Perm.refl _
  | x :: rest => by
    have h1 : save (x :: rest) = insertSorted x (save rest) := rfl
    rw [h1]
    exact (insertSorted_perm x (save rest)).trans (List.Perm.cons x (save_perm rest))

theorem Store.find_append_none : ∀ (a : Store) (x : GoStr × GoStr) (q : GoStr),
    Store.find a q = none → q ≠ x.1 → Store.find (a ++ [x]) q = none
  | [], x, q, _, hqx => by
    obtain ⟨p, h⟩ := x
    simp only [List.nil_append, Store.find]
    rw [if_neg (fun e => hqx (by simpa using e.symm))]
  | (k, v) :: rest, x, q, hfind, hqx => by
    rw [Store.find] at hfind
    by_cases hk : k = q
    · rw [if_pos hk] at hfind
      exact absurd hfind (by simp)
    · rw [if_neg hk] at hfind
      rw [List.cons_append, Store.find, if_neg hk]
      exact Store.find_append_none rest x q hfind hqx

theorem Store.set_of_absent : ∀ (db : Store) (p h : GoStr),
    Store.find db p = none → Store.set db p h = db ++ [(p, h)]
  | [], p, h, _ => rfl
  | (k, v) :: rest, p, h, hfind => by
    rw [Store.find] at hfind
    by_cases hk : k = p
    · rw [if_pos hk] at hfind
      exact absurd hfind (by simp)
    · rw [if_neg hk] at hfind
      rw [Store.set, if_neg hk, List.cons_append]
      rw [Store.set_of_absent rest p h hfind]

theorem load_go_eq : ∀ (l : List (GoStr × GoStr)) (acc : Store),
    (Store.keys l).Nodup → (∀ p ∈ Store.keys l, Store.find acc p = none) →
    List.foldl (fun a x => Store.set a x.1 x.2) acc l = acc ++ l
  | [], acc, _, _ => by simp
  | (p, h) :: rest, acc, hnd, habs => by
    rw [List.foldl_cons]
    have hpabs : Store.find acc p = none :=
      habs p (by rw [Store.keys]; exact List.mem_map_of_mem _ (List.mem_cons_self _ _))
    rw [Store.set_of_absent acc p h hpabs]
    rw [Store.keys, List.map_cons] at hnd
    have hnd' : (Store.keys rest).Nodup := by
      rw [Store.keys]
      exact (List.nodup_cons.mp hnd).2
    have hpnotin : p ∉ Store.keys rest := by
      rw [Store.keys]
      exact (List.nodup_cons.mp hnd).1
    have habs' : ∀ q ∈ Store.keys rest, Store.find (acc ++ [(p, h)]) q = none := by
      intro q hq
      refine Store.find_append_none acc (p, h) q
        (habs q (by rw [Store.keys] at hq ⊢; exact List.mem_cons_of_mem _ hq)) ?_
      intro e
      exact hpnotin (by rw [show p = q from by simpa using e.symm]; exact hq)
    rw [load_go_eq rest (acc ++ [(p, h)]) hnd' habs']
    simp

theorem load_eq_self (l : List (GoStr × GoStr)) (hnd : (Store.keys l).Nodup) :
    load l = l := by
  have := load_go_eq l [] hnd (fun p _ => rfl)
  rw [load, this]
  simp

/-! ### Exclusion-matcher lemmas -/

theorem slash_isSuffixOf_append (d : GoStr) : ['/'].isSuffixOf (d ++ ['/']) = true :=
  List.isSuffixOf_iff_suffix.mpr (List.suffix_append d ['/'])

theorem trimSuffix_append_slash (d : GoStr) : trimSuffix (d ++ ['/']) ['/'] = d := by
  rw [trimSuffix, if_pos (slash_isSuffixOf_append d)]
  have hlen : (d ++ ['/']).length - (['/'] : GoStr).length = d.length := by
    simp
  rw [hlen]
  exact List.take_left d ['/']

theorem shouldExclude_single_dir (p d : GoStr) :
    shouldExclude p [d ++ ['/']] = (d ++ ['/']).isPrefixOf (toSlash p) := by
  rw [shouldExclude]
  simp only [List.any_cons, List.any_nil, Bool.or_false]
  rw [if_pos (slash_isSuffixOf_append d), trimSuffix_append_slash]

theorem shouldExclude_of_dir_rule (p d : GoStr) (ex : List GoStr)
    (hm : (d ++ ['/']) ∈ ex)
    (hpre : (d ++ ['/']).isPrefixOf (toSlash p) = true) :
    shouldExclude p ex = true := by
  rw [shouldExclude, List.any_eq_true]
  refine ⟨d ++ ['/'], hm, ?_⟩
  rw [if_pos (slash_isSuffixOf_append d), trimSuffix_append_slash]
  exact hpre

/-! ### checkFiles-level lemmas -/

theorem sweepGo_kill (fs : FS) (ex : List GoStr) :
    ∀ (ks : List GoStr) (s : ScanState) (P : GoStr), P ∈ ks →
    statExists fs P = false → shouldExclude P ex = false →
    Store.find (sweepGo fs ex ks s).db P = none
  | [], s, P, hP, _, _ => absurd hP (List.not_mem_nil _)
  | p :: ks, s, P, hP, hex, hsx => by
    rw [sweepGo]
    rcases List.mem_cons.mp hP with rfl | hmem
    · rw [if_neg (by simp [hex]), if_neg (by simp [hsx])]
      exact sweepGo_none fs ex ks _ P (Store.find_erase_self s.db P)
    · by_cases he : statExists fs p
      · rw [if_pos he]
        exact sweepGo_kill fs ex ks s P hmem hex hsx
      · rw [if_neg he]
        by_cases hx : shouldExclude p ex
        · rw [if_pos hx]
          exact sweepGo_kill fs ex ks s P hmem hex hsx
        · rw [if_neg hx]
          exact sweepGo_kill fs ex ks _ P hmem hex hsx

theorem checkFiles_eq_jobs (fs : FS) (ex : List GoStr) (m : Int) (db : Store) :
    checkFiles fs ex m db =
      sweepGo fs ex (Store.keys (applyJobs m (scanJobs ex m fs) ⟨db, [], false⟩).db)
        (applyJobs m (scanJobs ex m fs) ⟨db, [], false⟩) := by
  rw [checkFiles, walkRoots_eq_applyJobs]

theorem eventsAt_nil_forall (P : GoStr) (evs : List ChangeEvent)
    (h : eventsAt P evs = []) : ∀ ev ∈ evs, ChangeEvent.path ev ≠ P := by
  intro ev hev
  have := List.filter_eq_nil_iff.mp h ev hev
  simpa using this

theorem checkFiles_untouched (fs : FS) (ex : List GoStr) (m : Int) (db : Store) (P : GoStr)
    (hjobs : ∀ j ∈ scanJobs ex m fs, j.path = P → (0 < m ∧ m < j.size) ∨ j.hashv = none)
    (hsweep : statExists fs P = true ∨ shouldExclude P ex = true) :
    Store.find (checkFiles fs ex m db).db P = Store.find db P ∧
    ∀ ev ∈ (checkFiles fs ex m db).events, ChangeEvent.path ev ≠ P := by
  rw [checkFiles_eq_jobs]
  have hframe := applyJobs_frame m (scanJobs ex m fs) ⟨db, [], false⟩ P hjobs
  have hsframe := sweepGo_frame fs ex
    (Store.keys (applyJobs m (scanJobs ex m fs) ⟨db, [], false⟩).db)
    (applyJobs m (scanJobs ex m fs) ⟨db, [], false⟩) P
    (by rcases hsweep with h | h
        · exact Or.inl h
        · exact Or.inr (Or.inl h))
  constructor
  · rw [hsframe.1, hframe.1]
  · intro ev hev
    rcases sweepGo_events fs ex _ _ ev hev with hin | ⟨q, rfl, hqex, hqsx⟩
    · refine eventsAt_nil_forall P _ ?_ ev hin
      rw [hframe.2]
      rfl
    · intro hc
      rw [ChangeEvent.path] at hc
      subst hc
      rcases hsweep with h | h
      · simp [hqex] at h
      · simp [hqsx] at h

theorem checkFiles_stable_find (fs : FS) (ex : List GoStr) (m : Int) (db : Store)
    (hnd : (allPaths fs).Nodup) :
    ∀ j ∈ scanJobs ex m fs, ∀ h, j.hashv = some h → ¬(0 < m ∧ m < j.size) →
    Store.find (checkFiles fs ex m db).db j.path = some h := by
  intro j hj h hhv hsz
  have hndJ : ((scanJobs ex m fs).map Job.path).Nodup :=
    (scanJobs_paths_sublist ex m fs).nodup hnd
  obtain ⟨jp, jsz, jhv⟩ := j
  simp only at hhv hsz ⊢
  subst hhv
  have hat := applyJobs_at m (scanJobs ex m fs) ⟨db, [], false⟩ jp jsz h hndJ hj hsz
  rw [checkFiles_eq_jobs]
  have hsframe := sweepGo_frame fs ex
    (Store.keys (applyJobs m (scanJobs ex m fs) ⟨db, [], false⟩).db)
    (applyJobs m (scanJobs ex m fs) ⟨db, [], false⟩) jp
    (Or.inl (by simpa using scanJobs_statExists ex m fs ⟨jp, jsz, some h⟩ hj))
  rw [hsframe.1, hat.1]

theorem checkFiles_keys_ok (fs : FS) (ex : List GoStr) (m : Int) (db : Store) :
    ∀ p ∈ Store.keys (checkFiles fs ex m db).db,
    statExists fs p = true ∨ shouldExclude p ex = true := by
  intro p hp
  by_cases hex : statExists fs p
  · exact Or.inl hex
  · by_cases hsx : shouldExclude p ex
    · exact Or.inr hsx
    · exfalso
      have hfind : Store.find (checkFiles fs ex m db).db p ≠ none :=
        (Store.find_ne_none_iff _ p).mpr hp
      rw [checkFiles_eq_jobs] at hfind
      have hs1 : Store.find (applyJobs m (scanJobs ex m fs) ⟨db, [], false⟩).db p ≠ none := by
        intro hc
        exact hfind (sweepGo_none fs ex _ _ p hc)
      have hmem : p ∈ Store.keys (applyJobs m (scanJobs ex m fs) ⟨db, [], false⟩).db :=
        (Store.find_ne_none_iff _ p).mp hs1
      have := sweepGo_kill fs ex
        (Store.keys (applyJobs m (scanJobs ex m fs) ⟨db, [], false⟩).db)
        (applyJobs m (scanJobs ex m fs) ⟨db, [], false⟩) p hmem
        (by simpa using hex) (by simpa using hsx)
      exact hfind this

theorem checkFiles_idempotent (fs : FS) (ex : List GoStr) (m : Int) (db : Store)
    (hnd : (allPaths fs).Nodup) :
    (checkFiles fs ex m (checkFiles fs ex m db).db).events = [] ∧
    (checkFiles fs ex m (checkFiles fs ex m db).db).db = (checkFiles fs ex m db).db := by
  have hstable := checkFiles_stable_find fs ex m db hnd
  have hid : applyJobs m (scanJobs ex m fs) ⟨(checkFiles fs ex m db).db, [], false⟩ =
      ⟨(checkFiles fs ex m db).db, [], false⟩ :=
    applyJobs_identity m (scanJobs ex m fs) _ (fun j hj h hhv hsz => hstable j hj h hhv hsz)
  have hkeys := checkFiles_keys_ok fs ex m db
  have hsid : sweepGo fs ex (Store.keys (checkFiles fs ex m db).db)
      ⟨(checkFiles fs ex m db).db, [], false⟩ =
      ⟨(checkFiles fs ex m db).db, [], false⟩ :=
    sweepGo_identity fs ex _ _ hkeys
  rw [checkFiles_eq_jobs fs ex m (checkFiles fs ex m db).db, hid, hsid]
  exact ⟨rfl, rfl⟩

/-! ### Hypothesis forms about the entries situated at one path -/

/-- Holds of a FileInfo when every regular file with it satisfies Q on
(size, hash outcome); directories and other non-regular entries satisfy
it trivially. -/
def fileEntryOk (Q : Int → Option GoStr → Bool) : FInfo → Bool
  | .file sz hv => Q sz hv
  | .dir => true
  | .other _ => true

/-- Every regular-file entry situated at path P anywhere in the monitored
filesystem satisfies Q on its size and hash outcome. -/
def filesAt (fs : FS) (P : GoStr) (Q : Int → Option GoStr → Bool) : Bool :=
  fs.all fun r => r.2.all fun e => if e.1 = P then fileEntryOk Q e.2 else true

theorem filesAt_job (fs : FS) (P : GoStr) (Q : Int → Option GoStr → Bool)
    (hall : filesAt fs P Q = true) (ex : List GoStr) (m : Int) (j : Job)
    (hj : j ∈ scanJobs ex m fs) (hp : j.path = P) : Q j.size j.hashv = true := by
  obtain ⟨⟨r, hr, hentry⟩, _⟩ := scanJobs_mem ex m fs j hj
  rw [filesAt, List.all_eq_true] at hall
  have h2 := hall r hr
  rw [List.all_eq_true] at h2
  have h3 := h2 (j.path, FInfo.file j.size j.hashv) hentry
  rw [if_pos (show ((j.path, FInfo.file j.size j.hashv)).1 = P from hp)] at h3
  rw [show fileEntryOk Q ((j.path, FInfo.file j.size j.hashv)).2 = Q j.size j.hashv
    from rfl] at h3
  exact h3

/-! ### The claims -/

/-- Claim C1, counterexample. The claim states that, given a root and a
directory-prefix exclusion rule for a subdirectory, no file under the
excluded subtree ever appears in the fingerprint store under any scan
sequence including the initial baseline build (initHashDB). The initial
baseline build applies no exclusion rules: on a first run (no store
file) over root a with rule a/b/, the excluded file a/b/f is hashed and
stored. -/
theorem c1_counterexample :
    ((str "a/b/").isPrefixOf (toSlash (str "a/b/f")) = true) ∧
    Store.find (initHashDB .absent
      [((str "a"),
        [((str "a"), FInfo.dir), ((str "a/b"), FInfo.dir),
         ((str "a/b/f"), FInfo.file 1 (some (str "h")))])])
      (str "a/b/f") = some (str "h") :=
  ⟨by decide, by decide⟩

/-- Claim C1, amended: during checkFiles cycles the directory-prefix rule
does prune recursively — for every root set, rule set, store and cycle, a
path lying under an excluded directory d/ keeps its store binding
unchanged (in particular it never gains one) and never produces any
ChangeEvent. The initial baseline build (initHashDB), however, ignores
the exclusion rules and does baseline files under the excluded subtree
(see the counterexample). -/
theorem c1_amended (fs : FS) (ex : List GoStr) (m : Int) (db : Store) (d P : GoStr)
    (hrule : (d ++ ['/']) ∈ ex)
    (hpre : (d ++ ['/']).isPrefixOf (toSlash P) = true) :
    Store.find (checkFiles fs ex m db).db P = Store.find db P ∧
    ∀ ev ∈ (checkFiles fs ex m db).events, ChangeEvent.path ev ≠ P := by
  have hex : shouldExclude P ex = true := shouldExclude_of_dir_rule P d ex hrule hpre
  refine checkFiles_untouched fs ex m db P ?_ (Or.inr hex)
  intro j hj hp
  exfalso
  have hje := (scanJobs_mem ex m fs j hj).2
  rw [hp] at hje
  rw [hje] at hex
  cases hex

/-- Witness for the amended claim C1 at a concrete input. -/
theorem c1_witness :
    Store.find (checkFiles
      [((str "d"), [((str "d"), FInfo.dir), ((str "d/f"), FInfo.file 1 (some (str "h")))])]
      [str "d/"] 0 []).db (str "d/f") = Store.find [] (str "d/f") ∧
    ∀ ev ∈ (checkFiles
      [((str "d"), [((str "d"), FInfo.dir), ((str "d/f"), FInfo.file 1 (some (str "h")))])]
      [str "d/"] 0 []).events, ChangeEvent.path ev ≠ (str "d/f") :=
  c1_amended
    [((str "d"), [((str "d"), FInfo.dir), ((str "d/f"), FInfo.file 1 (some (str "h")))])]
    [str "d/"] 0 [] (str "d") (str "d/f") (by decide) (by decide)

/-- Claim C2, counterexample. The claim states that when the store file
is corrupt, load falls back to an empty store so that the next scan
re-flags every existing file as a NewFile event, rather than silently
repopulating the baseline. In the code, the corrupt branch of initHashDB
itself re-hashes every file into the store without emitting anything, so
the following checkFiles cycle emits zero events. -/
theorem c2_counterexample :
    Store.find (initHashDB .corrupt
      [((str "r"), [((str "r"), FInfo.dir), ((str "r/a"), FInfo.file 1 (some (str "h")))])])
      (str "r/a") = some (str "h") ∧
    (checkFiles
      [((str "r"), [((str "r"), FInfo.dir), ((str "r/a"), FInfo.file 1 (some (str "h")))])]
      [] 0 (initHashDB .corrupt
        [((str "r"), [((str "r"), FInfo.dir), ((str "r/a"), FInfo.file 1 (some (str "h")))])])).events
      = [] :=
  ⟨by decide, by decide⟩

/-- Claim C2, amended: a corrupt store file is recovered from by
rebuilding the baseline immediately inside initHashDB, by re-hashing all
monitored files with no event emitted; the next scan then emits no
events at all — existing files are not re-flagged as new. -/
theorem c2_amended (fs : FS) (ex : List GoStr) (m : Int)
    (hnd : (allPaths fs).Nodup) :
    initHashDB .corrupt fs = initRebuild fs [] ∧
    (checkFiles fs ex m (initHashDB .corrupt fs)).events = [] := by
  refine ⟨rfl, ?_⟩
  show (checkFiles fs ex m (initRebuild fs [])).events = []
  rw [checkFiles_eq_jobs]
  have hid : applyJobs m (scanJobs ex m fs) ⟨initRebuild fs [], [], false⟩ =
      ⟨initRebuild fs [], [], false⟩ := by
    apply applyJobs_identity
    intro j hj h hhv hsz
    obtain ⟨⟨r, hr, hentry⟩, _⟩ := scanJobs_mem ex m fs j hj
    rw [hhv] at hentry
    exact initRebuild_at fs [] j.path j.size h ⟨r, hr, hentry⟩ hnd
  rw [hid]
  have hkeys : ∀ p ∈ Store.keys (initRebuild fs []),
      statExists fs p = true ∨ shouldExclude p ex = true := by
    intro p hp
    have hf : Store.find (initRebuild fs []) p ≠ none :=
      (Store.find_ne_none_iff _ p).mpr hp
    rcases initRebuild_keys fs [] p hf with h | h
    · exact absurd rfl h
    · exact Or.inl (by rw [statExists, decide_eq_true_iff]; exact h)
  rw [sweepGo_identity fs ex _ _ hkeys]

/-- Witness for the amended claim C2 at a concrete input. -/
theorem c2_witness :
    initHashDB .corrupt
      [((str "r"), [((str "r"), FInfo.dir), ((str "r/a"), FInfo.file 1 (some (str "h")))])] =
      initRebuild
        [((str "r"), [((str "r"), FInfo.dir), ((str "r/a"), FInfo.file 1 (some (str "h")))])] [] ∧
    (checkFiles
      [((str "r"), [((str "r"), FInfo.dir), ((str "r/a"), FInfo.file 1 (some (str "h")))])]
      [] 0 (initHashDB .corrupt
        [((str "r"), [((str "r"), FInfo.dir), ((str "r/a"), FInfo.file 1 (some (str "h")))])])).events
      = [] :=
  c2_amended
    [((str "r"), [((str "r"), FInfo.dir), ((str "r/a"), FInfo.file 1 (some (str "h")))])]
    [] 0 (by decide)

/-- Claim C3, counterexample. The claim states that a directory rule
matches the excluded directory itself, in particular that the rule logs/
excludes the path logs. shouldExclude trims the trailing slash and then
requires the prefix logs/ on the normalized path, which the bare path
logs does not have, so logs is not excluded. -/
theorem c3_counterexample : shouldExclude (str "logs") [str "logs/"] = false := by decide

/-- Claim C3, amended: a directory-prefix rule d/ excludes exactly the
paths whose normalized form starts with d/ — everything strictly beneath
the directory, at an exact directory boundary, but not the directory
itself; in particular logs/ excludes logs/x and does not exclude either
logs or logs_backup/file. -/
theorem c3_amended (p d : GoStr) :
    shouldExclude p [d ++ ['/']] = (d ++ ['/']).isPrefixOf (toSlash p) :=
  shouldExclude_single_dir p d

/-- Claim C4: in the deletion sweep after all roots are walked, a stored
path that no longer exists on disk is, when not excluded, removed from
the store with exactly one DeletedFile event; when it matches an
exclusion rule, no event is emitted and its store binding is kept
unchanged. -/
theorem c4_deletion_sweep (fs : FS) (ex : List GoStr) (s : ScanState) (P : GoStr)
    (hnd : (Store.keys s.db).Nodup) (hmem : P ∈ Store.keys s.db)
    (hgone : statExists fs P = false) :
    (shouldExclude P ex = false →
      Store.find (sweepGo fs ex (Store.keys s.db) s).db P = none ∧
      eventsAt P (sweepGo fs ex (Store.keys s.db) s).events =
        eventsAt P s.events ++ [.deletedFile P]) ∧
    (shouldExclude P ex = true →
      Store.find (sweepGo fs ex (Store.keys s.db) s).db P = Store.find s.db P ∧
      eventsAt P (sweepGo fs ex (Store.keys s.db) s).events = eventsAt P s.events) := by
  constructor
  · intro hsx
    exact sweepGo_delete_at fs ex (Store.keys s.db) s P hnd hmem hgone hsx
  · intro hsx
    exact sweepGo_frame fs ex (Store.keys s.db) s P (Or.inr (Or.inl hsx))

/-- Witness for claim C4 at a concrete input. -/
theorem c4_witness :
    (shouldExclude (str "p") [] = false →
      Store.find (sweepGo [] [] (Store.keys [((str "p"), (str "h"))])
        ⟨[((str "p"), (str "h"))], [], false⟩).db (str "p") = none ∧
      eventsAt (str "p") (sweepGo [] [] (Store.keys [((str "p"), (str "h"))])
        ⟨[((str "p"), (str "h"))], [], false⟩).events =
        eventsAt (str "p") ([] : List ChangeEvent) ++ [.deletedFile (str "p")]) ∧
    (shouldExclude (str "p") [] = true →
      Store.find (sweepGo [] [] (Store.keys [((str "p"), (str "h"))])
        ⟨[((str "p"), (str "h"))], [], false⟩).db (str "p") =
        Store.find [((str "p"), (str "h"))] (str "p") ∧
      eventsAt (str "p") (sweepGo [] [] (Store.keys [((str "p"), (str "h"))])
        ⟨[((str "p"), (str "h"))], [], false⟩).events =
        eventsAt (str "p") ([] : List ChangeEvent)) :=
  c4_deletion_sweep [] [] ⟨[((str "p"), (str "h"))], [], false⟩ (str "p")
    (by decide) (by decide) (by decide)

/-- Claim C5, counterexample. The claim states that a file larger than
the configured maximum (10485760 bytes in the shipped configuration) is
never fingerprinted or stored in any scan cycle including the initial
baseline build. The initial baseline build applies no size check: on a
first run it hashes and stores a 10485761-byte file. -/
theorem c5_counterexample :
    ((0 : Int) < 10485760 ∧ (10485760 : Int) < 10485761) ∧
    Store.find (initHashDB .absent
      [((str "r"),
        [((str "r"), FInfo.dir),
         ((str "r/big"), FInfo.file 10485761 (some (str "h")))])])
      (str "r/big") = some (str "h") :=
  ⟨by decide, by decide⟩

/-- Claim C5, amended: during checkFiles cycles the size limit is
enforced — when every file entry at path P exceeds a positive MaxFileSize
m, the path keeps its store binding unchanged (in particular it never
gains one) and produces no ChangeEvent, whatever its content hashes to.
The initial baseline build (initHashDB), however, applies no size check
and does store oversized files (see the counterexample). -/
theorem c5_amended (fs : FS) (ex : List GoStr) (m : Int) (db : Store) (P : GoStr)
    (hbig : filesAt fs P (fun sz _ => decide (0 < m ∧ m < sz)) = true)
    (hexists : statExists fs P = true) :
    Store.find (checkFiles fs ex m db).db P = Store.find db P ∧
    ∀ ev ∈ (checkFiles fs ex m db).events, ChangeEvent.path ev ≠ P := by
  refine checkFiles_untouched fs ex m db P ?_ (Or.inl hexists)
  intro j hj hp
  exact Or.inl (of_decide_eq_true (filesAt_job fs P _ hbig ex m j hj hp))

/-- Witness for the amended claim C5 at a concrete input. -/
theorem c5_witness :
    Store.find (checkFiles
      [((str "r"), [((str "r"), FInfo.dir), ((str "r/big"), FInfo.file 9 (some (str "h")))])]
      [] 5 []).db (str "r/big") = Store.find [] (str "r/big") ∧
    ∀ ev ∈ (checkFiles
      [((str "r"), [((str "r"), FInfo.dir), ((str "r/big"), FInfo.file 9 (some (str "h")))])]
      [] 5 []).events, ChangeEvent.path ev ≠ (str "r/big") :=
  c5_amended
    [((str "r"), [((str "r"), FInfo.dir), ((str "r/big"), FInfo.file 9 (some (str "h")))])]
    [] 5 [] (str "r/big") (by decide) (by decide)

/-- Claim C6: scanning is idempotent against an unchanged filesystem —
for every store, rule set, size limit and (duplicate-free) filesystem,
running checkFiles twice in a row produces zero events on the second run
and leaves the store of the first run unchanged. -/
theorem c6_scan_idempotent (fs : FS) (ex : List GoStr) (m : Int) (db : Store)
    (hnd : (allPaths fs).Nodup) :
    (checkFiles fs ex m (checkFiles fs ex m db).db).events = [] ∧
    (checkFiles fs ex m (checkFiles fs ex m db).db).db = (checkFiles fs ex m db).db :=
  checkFiles_idempotent fs ex m db hnd

/-- Witness for claim C6 at a concrete input. -/
theorem c6_witness :
    (checkFiles
      [((str "r"), [((str "r"), FInfo.dir), ((str "r/a"), FInfo.file 1 (some (str "h")))])]
      [] 0 (checkFiles
        [((str "r"), [((str "r"), FInfo.dir), ((str "r/a"), FInfo.file 1 (some (str "h")))])]
        [] 0 []).db).events = [] ∧
    (checkFiles
      [((str "r"), [((str "r"), FInfo.dir), ((str "r/a"), FInfo.file 1 (some (str "h")))])]
      [] 0 (checkFiles
        [((str "r"), [((str "r"), FInfo.dir), ((str "r/a"), FInfo.file 1 (some (str "h")))])]
        [] 0 []).db).db =
      (checkFiles
        [((str "r"), [((str "r"), FInfo.dir), ((str "r/a"), FInfo.file 1 (some (str "h")))])]
        [] 0 []).db :=
  c6_scan_idempotent
    [((str "r"), [((str "r"), FInfo.dir), ((str "r/a"), FInfo.file 1 (some (str "h")))])]
    [] 0 [] (by decide)

/-- Claim C7: modification detection — for a baselined path P holding
fingerprint H1 in the store, visited by the walk as an eligible (non-root,
non-excluded, size-eligible) regular file whose content now hashes to
H2: when H1 and H2 differ, the scan emits exactly one event for P, a
ModifiedFile carrying old H1 and new H2, and updates the store entry to
H2; when they are equal, it emits no event for P and leaves the entry
unchanged. -/
theorem c7_modification_detection (fs : FS) (ex : List GoStr) (m : Int) (db : Store)
    (P : GoStr) (sz : Int) (H1 H2 : GoStr)
    (hnd : (allPaths fs).Nodup)
    (hjob : (⟨P, sz, some H2⟩ : Job) ∈ scanJobs ex m fs)
    (hsz : ¬(0 < m ∧ m < sz))
    (hstored : Store.find db P = some H1) :
    (H1 ≠ H2 →
      Store.find (checkFiles fs ex m db).db P = some H2 ∧
      eventsAt P (checkFiles fs ex m db).events = [.modifiedFile P sz H1 H2]) ∧
    (H1 = H2 →
      Store.find (checkFiles fs ex m db).db P = some H1 ∧
      eventsAt P (checkFiles fs ex m db).events = []) := by
  have hndJ : ((scanJobs ex m fs).map Job.path).Nodup :=
    (scanJobs_paths_sublist ex m fs).nodup hnd
  have hat := applyJobs_at m (scanJobs ex m fs) ⟨db, [], false⟩ P sz H2 hndJ hjob hsz
  have hst : statExists fs P = true := by
    simpa using scanJobs_statExists ex m fs ⟨P, sz, some H2⟩ hjob
  have hsf := sweepGo_frame fs ex
    (Store.keys (applyJobs m (scanJobs ex m fs) ⟨db, [], false⟩).db)
    (applyJobs m (scanJobs ex m fs) ⟨db, [], false⟩) P (Or.inl hst)
  rw [checkFiles_eq_jobs]
  dsimp only at hat
  rw [hstored] at hat
  constructor
  · intro hne
    refine ⟨by rw [hsf.1, hat.1], ?_⟩
    rw [hsf.2, hat.2]
    simp [eventsAt, eventAt, hne]
  · intro heq
    subst heq
    refine ⟨by rw [hsf.1, hat.1], ?_⟩
    rw [hsf.2, hat.2]
    simp [eventsAt, eventAt]

/-- Witness for claim C7 at a concrete input. -/
theorem c7_witness :
    ((str "h1") ≠ (str "h2") →
      Store.find (checkFiles
        [((str "r"), [((str "r"), FInfo.dir), ((str "r/a"), FInfo.file 1 (some (str "h2")))])]
        [] 0 [((str "r/a"), (str "h1"))]).db (str "r/a") = some (str "h2") ∧
      eventsAt (str "r/a") (checkFiles
        [((str "r"), [((str "r"), FInfo.dir), ((str "r/a"), FInfo.file 1 (some (str "h2")))])]
        [] 0 [((str "r/a"), (str "h1"))]).events =
        [.modifiedFile (str "r/a") 1 (str "h1") (str "h2")]) ∧
    ((str "h1") = (str "h2") →
      Store.find (checkFiles
        [((str "r"), [((str "r"), FInfo.dir), ((str "r/a"), FInfo.file 1 (some (str "h2")))])]
        [] 0 [((str "r/a"), (str "h1"))]).db (str "r/a") = some (str "h1") ∧
      eventsAt (str "r/a") (checkFiles
        [((str "r"), [((str "r"), FInfo.dir), ((str "r/a"), FInfo.file 1 (some (str "h2")))])]
        [] 0 [((str "r/a"), (str "h1"))]).events = []) :=
  c7_modification_detection
    [((str "r"), [((str "r"), FInfo.dir), ((str "r/a"), FInfo.file 1 (some (str "h2")))])]
    [] 0 [((str "r/a"), (str "h1"))] (str "r/a") 1 (str "h1") (str "h2")
    (by decide) (by decide) (by decide) (by decide)

/-- Claim C8: a file whose content cannot be read during fingerprinting
is fail-open — its store binding is left exactly as it was and it is
flagged neither new, nor modified, nor deleted in that cycle, while the
scan continues normally with everything else (the model is total, so the
rest of the cycle proceeds unconditionally). -/
theorem c8_hash_error_fail_open (fs : FS) (ex : List GoStr) (m : Int) (db : Store)
    (P : GoStr)
    (hread : filesAt fs P (fun _ hv => hv.isNone) = true)
    (hexists : statExists fs P = true) :
    Store.find (checkFiles fs ex m db).db P = Store.find db P ∧
    ∀ ev ∈ (checkFiles fs ex m db).events, ChangeEvent.path ev ≠ P := by
  refine checkFiles_untouched fs ex m db P ?_ (Or.inl hexists)
  intro j hj hp
  exact Or.inr (Option.isNone_iff_eq_none.mp (filesAt_job fs P _ hread ex m j hj hp))

/-- Witness for claim C8 at a concrete input. -/
theorem c8_witness :
    Store.find (checkFiles
      [((str "r"), [((str "r"), FInfo.dir), ((str "r/bad"), FInfo.file 1 none)])]
      [] 0 [((str "r/bad"), (str "h0"))]).db (str "r/bad") =
      Store.find [((str "r/bad"), (str "h0"))] (str "r/bad") ∧
    ∀ ev ∈ (checkFiles
      [((str "r"), [((str "r"), FInfo.dir), ((str "r/bad"), FInfo.file 1 none)])]
      [] 0 [((str "r/bad"), (str "h0"))]).events, ChangeEvent.path ev ≠ (str "r/bad") :=
  c8_hash_error_fail_open
    [((str "r"), [((str "r"), FInfo.dir), ((str "r/bad"), FInfo.file 1 none)])]
    [] 0 [((str "r/bad"), (str "h0"))] (str "r/bad") (by decide) (by decide)

/-- Claim C9: persistence round-trips — serializing a (duplicate-free)
store with save and deserializing the written members with load yields a
store holding exactly the same path-to-fingerprint pairs. -/
theorem c9_save_load_roundtrip (db : Store) (hnd : (Store.keys db).Nodup) :
    (load (save db)).Perm db := by
  have hperm : (save db).Perm db := save_perm db
  have hkeys : (Store.keys (save db)).Perm (Store.keys db) := by
    unfold Store.keys
    exact hperm.map _
  rw [load_eq_self (save db) (hkeys.nodup_iff.mpr hnd)]
  exact hperm

/-- Witness for claim C9 at a concrete input. -/
theorem c9_witness :
    (load (save [((str "b"), (str "1")), ((str "a"), (str "2"))])).Perm
      [((str "b"), (str "1")), ((str "a"), (str "2"))] :=
  c9_save_load_roundtrip [((str "b"), (str "1")), ((str "a"), (str "2"))] (by decide)

/-- Claim C10: when a baselined regular file is replaced on disk by a
non-regular entry of the same path (a directory or another non-regular
kind), no event of any kind is emitted for that path and its stale store
binding is retained: the walk skips it as non-regular, and the deletion
sweep skips it because the path still stats. -/
theorem c10_nonregular_replacement (fs : FS) (ex : List GoStr) (m : Int) (db : Store)
    (P H : GoStr)
    (hstored : Store.find db P = some H)
    (hnofile : filesAt fs P (fun _ _ => false) = true)
    (hexists : statExists fs P = true) :
    Store.find (checkFiles fs ex m db).db P = some H ∧
    ∀ ev ∈ (checkFiles fs ex m db).events, ChangeEvent.path ev ≠ P := by
  have h := checkFiles_untouched fs ex m db P
    (fun j hj hp => absurd (filesAt_job fs P _ hnofile ex m j hj hp) (by simp))
    (Or.inl hexists)
  exact ⟨by rw [h.1, hstored], h.2⟩

/-- Witness for claim C10 at a concrete input. -/
theorem c10_witness :
    Store.find (checkFiles
      [((str "r"), [((str "r"), FInfo.dir), ((str "r/a"), FInfo.dir)])]
      [] 0 [((str "r/a"), (str "h"))]).db (str "r/a") = some (str "h") ∧
    ∀ ev ∈ (checkFiles
      [((str "r"), [((str "r"), FInfo.dir), ((str "r/a"), FInfo.dir)])]
      [] 0 [((str "r/a"), (str "h"))]).events, ChangeEvent.path ev ≠ (str "r/a") :=
  c10_nonregular_replacement
    [((str "r"), [((str "r"), FInfo.dir), ((str "r/a"), FInfo.dir)])]
    [] 0 [((str "r/a"), (str "h"))] (str "r/a") (str "h")
    (by decide) (by decide) (by decide)
